import Mathlib

set_option maxHeartbeats 1000000

namespace SchedulerSpec

/-! ## Definitions (shallow embedding of the source) -/

/-- The `schedule` configuration of a script: `period` and `position` in
seconds, `offset` the jitter bound in seconds (`scheduler.js` header). -/
structure Schedule where
  period : Int
  position : Int
  offset : Int
deriving Repr, DecidableEq

/-- A heap entry as built in `initialize` / `executeTask`: `name`, the
`schedule` it was created from, and its current `nextRun` timestamp (ms).
The `scriptPath`/`script` fields are opaque to the scheduler and omitted. -/
structure Task where
  name : String
  schedule : Schedule
  nextRun : Int
deriving Repr, DecidableEq

def defaultTask : Task := ⟨"", ⟨0, 0, 0⟩, 0⟩

/-- JS array read `this.heap[i]`; every reachable read in the source is in
bounds, the default only makes the model total. -/
def lget (l : List Task) (i : Nat) : Task := l.getD i defaultTask

/-- `swap(i, j)`: `[this.heap[i], this.heap[j]] = [this.heap[j], this.heap[i]]`. -/
def lswap (l : List Task) (i j : Nat) : List Task := (l.set i (lget l j)).set j (lget l i)

/-- `parent(i) = Math.floor((i - 1) / 2)`; only evaluated at `i ≥ 1` in the
source (short-circuit in `heapifyUp`), where Nat division agrees with JS. -/
def parentIdx (i : Nat) : Nat := (i - 1) / 2

/-- The comparison key: `task.nextRun`. -/
def keyAt (l : List Task) (i : Nat) : Int := (lget l i).nextRun

/-- One loop of `heapifyUp(i)`: while `i > 0` and
`heap[parent(i)].nextRun > heap[i].nextRun`, swap with the parent and continue
from the parent.  The index strictly decreases, so a structural `fuel ≥ i`
bounds the iterations without changing the result. -/
def heapifyUpF : Nat → List Task → Nat → List Task
  | 0, l, _ => l
  | fuel + 1, l, i =>
    if 0 < i then
      if keyAt l i < keyAt l (parentIdx i) then
        heapifyUpF fuel (lswap l (parentIdx i) i) (parentIdx i)
      else l
    else l

/-- `heapifyUp(i)` from `scheduler.js`. -/
def heapifyUp (l : List Task) (i : Nat) : List Task := heapifyUpF i l i

/-- `push(task)`: append, then sift up from the last index. -/
def pushHeap (l : List Task) (t : Task) : List Task := heapifyUp (l ++ [t]) l.length

/-- `minIndex` after the left-child comparison in `heapifyDown`. -/
def minChild1 (l : List Task) (i : Nat) : Nat :=
  if 2 * i + 1 < l.length ∧ keyAt l (2 * i + 1) < keyAt l i then 2 * i + 1 else i

/-- `minIndex` after both child comparisons in `heapifyDown`. -/
def minChildIdx (l : List Task) (i : Nat) : Nat :=
  if 2 * i + 2 < l.length ∧ keyAt l (2 * i + 2) < keyAt l (minChild1 l i) then 2 * i + 2
  else minChild1 l i

/-- One loop of `heapifyDown(i)`: move to the smallest of `i` and its
children until `i` is smallest.  The index strictly increases and stays below
the (fixed) length, so a structural `fuel ≥ length - i` bounds the
iterations without changing the result. -/
def heapifyDownF : Nat → List Task → Nat → List Task
  | 0, l, _ => l
  | fuel + 1, l, i =>
    if minChildIdx l i ≠ i then
      heapifyDownF fuel (lswap l i (minChildIdx l i)) (minChildIdx l i)
    else l

/-- `heapifyDown(i)` from `scheduler.js`. -/
def heapifyDown (l : List Task) (i : Nat) : List Task := heapifyDownF l.length l i

/-- `pop()`: empty → `null`; singleton → remove and return it; otherwise
return the root, move the last element to the root and sift down. -/
def popHeap (l : List Task) : Option Task × List Task :=
  if l.length = 0 then (none, l)
  else if l.length = 1 then (some (lget l 0), [])
  else (some (lget l 0), heapifyDown (l.dropLast.set 0 (lget l (l.length - 1))) 0)

/-- `peek()`: `this.heap.length > 0 ? this.heap[0] : null`. -/
def peekHeap (l : List Task) : Option Task :=
  if 0 < l.length then some (lget l 0) else none

/-- `size()`. -/
def sizeHeap (l : List Task) : Nat := l.length

/-- Every non-root element is at least its parent. -/
def heapInv (l : List Task) : Prop :=
  ∀ j, 0 < j → j < l.length → keyAt l (parentIdx j) ≤ keyAt l j

/-- Invariant during `heapifyUp`: every parent/child pair is ordered except
possibly the one at `i`, and (when `i` has a parent) `i`'s parent is already
at most `i`'s children. -/
def upInv (l : List Task) (i : Nat) : Prop :=
  (∀ j, 0 < j → j < l.length → j ≠ i → keyAt l (parentIdx j) ≤ keyAt l j) ∧
  (∀ j, j < l.length → 0 < i → parentIdx j = i → keyAt l (parentIdx i) ≤ keyAt l j)

/-- Invariant during `heapifyDown`: every parent/child pair is ordered except
possibly the pairs below `i`, and (when `i` has a parent) `i`'s parent is
already at most `i`'s children. -/
def downInv (l : List Task) (i : Nat) : Prop :=
  (∀ j, 0 < j → j < l.length → parentIdx j ≠ i → keyAt l (parentIdx j) ≤ keyAt l j) ∧
  (∀ j, j < l.length → 0 < i → parentIdx j = i → keyAt l (parentIdx i) ≤ keyAt l j)

inductive HeapOp where
  | hpush (t : Task)
  | hpop
deriving Repr, DecidableEq

/-- Heap together with counters: `pushes` pushes so far, `pops` pops that
returned an element (pops of an empty heap return `null` and count nothing). -/
structure OpsState where
  heap : List Task
  pushes : Nat
  pops : Nat
deriving Repr, DecidableEq

def stepOp (s : OpsState) : HeapOp → OpsState
  | .hpush t => ⟨pushHeap s.heap t, s.pushes + 1, s.pops⟩
  | .hpop =>
    match popHeap s.heap with
    | (none, h) => ⟨h, s.pushes, s.pops⟩
    | (some _, h) => ⟨h, s.pushes, s.pops + 1⟩

def runOps (ops : List HeapOp) : OpsState := ops.foldl stepOp ⟨[], 0, 0⟩

def opsInv (s : OpsState) : Prop := heapInv s.heap ∧ s.heap.length + s.pops = s.pushes

/-- `calculateNextRun(period, position, offset)` from `scheduler.js`
(lines 141–159).  `now` is `Date.now()` in milliseconds; `draw` models the
value of `Math.floor(Math.random() * (offset * 2 + 1))`, so `randomOffset =
draw - offset ∈ [-offset, offset]`.  The result is in milliseconds. -/
def calculateNextRun (now period position offset draw : Int) : Int :=
  let nowSeconds := Int.fdiv now 1000
  let nextPeriodStart := nowSeconds + period
  let targetPeriodStart := (Int.fdiv nextPeriodStart period) * period
  let randomOffset := draw - offset
  (targetPeriodStart + position + randomOffset) * 1000

/-- Number of heap entries carrying a given task name. -/
def countName (l : List Task) (n : String) : Nat := l.countP (fun t => t.name == n)

/-- The observable ways one dispatch of `executeTask(task)` can end:
`execute` resolves with `success: true` / `success: false`, `execute` throws,
`startAppiumSession` throws, or `stopAppiumSession` throws in the `try` body. -/
inductive Outcome where
  | success
  | reportedFailure
  | execThrows
  | acquireFails
  | teardownFails
deriving Repr, DecidableEq

/-- `{...task, nextRun}` with `nextRun = calculateNextRun(period, position,
offset || 0)` evaluated at the reschedule time `tNow`. -/
def rescheduled (task : Task) (tNow draw : Int) : Task :=
  { task with
    nextRun := calculateNextRun tNow task.schedule.period task.schedule.position
      task.schedule.offset draw }

/-- `executeTask(task)` (`scheduler.js` 273–329), restricted to its effect on
the heap: both the `try` body and the `catch` handler end by pushing the task
back with a freshly computed `nextRun`, whatever the outcome was. -/
def executeTask (task : Task) (out : Outcome) (heap : List Task) (tNow draw : Int) :
    List Task :=
  match out with
  | .success => pushHeap heap (rescheduled task tNow draw)
  | .reportedFailure => pushHeap heap (rescheduled task tNow draw)
  | .execThrows => pushHeap heap (rescheduled task tNow draw)
  | .acquireFails => pushHeap heap (rescheduled task tNow draw)
  | .teardownFails => pushHeap heap (rescheduled task tNow draw)

/-- A script's `schedule` object as read by `initialize`; `none` fields are
JS `undefined`. -/
structure ScriptSchedule where
  enabled : Bool
  period : Option Int
  position : Option Int
  offset : Option Int
deriving Repr, DecidableEq

/-- A loaded script file: its `name` and optional `schedule`. -/
structure Script where
  name : String
  schedule : Option ScriptSchedule
deriving Repr, DecidableEq

/-- JS truthiness of `period` in `if (!period || position === undefined)`:
falsy exactly for `undefined` and `0` (negative values are truthy). -/
def periodTruthy : Option Int → Bool
  | none => false
  | some p => p != 0

/-- The acceptance test `initialize` applies to one script:
`script.schedule && script.schedule.enabled` and then
`!(!period || position === undefined)`. -/
def acceptScript (s : Script) : Bool :=
  match s.schedule with
  | none => false
  | some sch => sch.enabled && periodTruthy sch.period && sch.position.isSome

/-- The heap entry `initialize` builds for an accepted script. -/
def mkTask (tNow : Int) (name : String) (sch : ScriptSchedule) (draw : Int) : Task :=
  ⟨name, ⟨sch.period.getD 0, sch.position.getD 0, sch.offset.getD 0⟩,
    calculateNextRun tNow (sch.period.getD 0) (sch.position.getD 0) (sch.offset.getD 0) draw⟩

/-- The loop of `initialize` (`scheduler.js` 180–219) over the script files:
skip scripts without an enabled schedule, skip scripts failing the
`!period || position === undefined` check, push an entry for the rest.
`draws` feeds one random draw per accepted script. -/
def populateHeap (tNow : Int) : List Script → List Int → List Task → List Task
  | [], _, h => h
  | s :: rest, draws, h =>
    match s.schedule with
    | some sch =>
      if sch.enabled && periodTruthy sch.period && sch.position.isSome then
        populateHeap tNow rest draws.tail (pushHeap h (mkTask tNow s.name sch (draws.headD 0)))
      else populateHeap tNow rest draws h
    | none => populateHeap tNow rest draws h

/-- The module-scope scheduler state: `initialized` flag and the heap. -/
structure SchedState where
  initialized : Bool
  heap : List Task
deriving Repr, DecidableEq

/-- `initialize()` (`scheduler.js` 165–227): `if (initialized) return;`, then
scan the scripts, push accepted entries, and set `initialized = true`.
(The model covers the successful scan; an `fs` exception would leave the flag
unset, which is outside the pure scan logic.) -/
def initializeModel (tNow : Int) (scripts : List Script) (draws : List Int)
    (st : SchedState) : SchedState :=
  if st.initialized then st
  else { initialized := true, heap := populateHeap tNow scripts draws st.heap }

/-- Substring test of JS `String.prototype.includes`. -/
def hasSub (pat : List Char) : List Char → Bool
  | [] => pat.isEmpty
  | c :: t => pat.isPrefixOf (c :: t) || hasSub pat t

def strIncludes (s pat : String) : Bool := hasSub pat.data s.data

/-- The crash-signature test of `handleRequest` (`debug.js` 132–134). -/
def isSessionCrash (msg : String) : Bool :=
  strIncludes msg "instrumentation process is not running" ||
  strIncludes msg "session" || strIncludes msg "proxy"

/-- The state the debug module keeps: the `debugDriver` handle (if any), how
many `remote(wdOpts)` connects happened, a fresh-handle counter, and how many
handler attempts ran (for observing retries). -/
structure DebugSt where
  debugDriver : Option Nat
  connectCount : Nat
  nextHandle : Nat
  attempts : Nat
deriving Repr, DecidableEq

/-- A successful `remote(wdOpts)`: a fresh live handle. -/
def connectNew (st : DebugSt) : Nat × DebugSt :=
  (st.nextHandle,
    { st with
        debugDriver := some st.nextHandle
        connectCount := st.connectCount + 1
        nextHandle := st.nextHandle + 1 })

/-- `getDebugDriver()` (`debug.js` 15–59): reuse the existing session when
`driver.status()` succeeds, otherwise drop it (after a best-effort
`deleteSession`) and connect a new one; with no session, connect. -/
def getDebugDriverM (statusOk : Nat → Bool) (st : DebugSt) : Nat × DebugSt :=
  match st.debugDriver with
  | some d => if statusOk d then (d, st) else connectNew { st with debugDriver := none }
  | none => connectNew st

/-- The retry loop of `handleRequest(operation, handler, retries)`
(`debug.js` 120–154).  `handler a d` is what the handler does on attempt `a`
against driver `d`.  `fuel = retries + 1 - attempt` makes the loop structural;
the fuel-exhausted branch is the dead `throw lastError` after the loop.  The
fixed 1-second backoff is a delay, not state, and is not modelled. -/
def handleRequestAux {α : Type} (statusOk : Nat → Bool)
    (handler : Nat → Nat → Except String α) (retries : Nat) :
    Nat → Nat → DebugSt → Except String α × DebugSt
  | 0, _, st => (.error "", st)
  | fuel + 1, attempt, st =>
    let dst := getDebugDriverM statusOk st
    let st2 := { dst.2 with attempts := dst.2.attempts + 1 }
    match handler attempt dst.1 with
    | .ok v => (.ok v, st2)
    | .error e =>
      if isSessionCrash e ∧ attempt < retries then
        handleRequestAux statusOk handler retries fuel (attempt + 1)
          { st2 with debugDriver := none }
      else if attempt = retries then (.error e, st2)
      else handleRequestAux statusOk handler retries fuel (attempt + 1) st2

/-- `handleRequest(operation, handler, retries)`. -/
def handleRequest {α : Type} (statusOk : Nat → Bool)
    (handler : Nat → Nat → Except String α) (retries : Nat) (st : DebugSt) :
    Except String α × DebugSt :=
  handleRequestAux statusOk handler retries (retries + 1) 0 st

/-- The per-caller control points of `startAppiumSession()` (`appium.js`
35–53): a caller synchronously checks `driver`; when it is non-null it
returns it, otherwise it starts `remote(opts)` and suspends; on resume it
assigns `driver` and returns its own handle. -/
inductive CallerPhase where
  | ready
  | awaitingConnect (h : Nat)
  | finished (h : Nat)
deriving Repr, DecidableEq

/-- Shared module state of `appium.js` plus the continuation of each caller. -/
structure SessSt where
  driver : Option Nat
  connectCount : Nat
  nextHandle : Nat
  callers : List CallerPhase
deriving Repr, DecidableEq

/-- Run caller `i` up to its next suspension point (one JS event-loop step). -/
def stepCaller (st : SessSt) (i : Nat) : SessSt :=
  match st.callers.getD i (.finished 0) with
  | .ready =>
    match st.driver with
    | some h => { st with callers := st.callers.set i (.finished h) }
    | none =>
      { st with
          connectCount := st.connectCount + 1
          nextHandle := st.nextHandle + 1
          callers := st.callers.set i (.awaitingConnect st.nextHandle) }
  | .awaitingConnect h =>
    { st with driver := some h, callers := st.callers.set i (.finished h) }
  | .finished _ => st

/-- Interleave the callers in the order given by `sched`. -/
def runSched (init : SessSt) (sched : List Nat) : SessSt := sched.foldl stepCaller init

/-- A tiny store of JS arrays: cell `r` holds that array's contents.  The
heap's backing array lives in one cell; `getAll` allocates another. -/
structure ArrStore where
  cells : List (List Task)
deriving Repr, DecidableEq

def readArr (s : ArrStore) (r : Nat) : List Task := s.cells.getD r []

def writeArr (s : ArrStore) (r : Nat) (v : List Task) : ArrStore := ⟨s.cells.set r v⟩

/-- `getAll()` of `MinHeap` (`scheduler.js` 129–131): `return [...this.heap]`
— allocate a fresh array holding a copy of the heap's contents and return
the new reference. -/
def getAllOp (s : ArrStore) (heapRef : Nat) : Nat × ArrStore :=
  (s.cells.length, ⟨s.cells ++ [readArr s heapRef]⟩)

/-- The spec's scenario tasks: period `86400`, positions `0`/`43200`/`3600`,
jitter `0`, with `nextRun` computed at `now = 0`. -/
def taskP0 : Task := ⟨"p0", ⟨86400, 0, 0⟩, calculateNextRun 0 86400 0 0 0⟩

def taskP43200 : Task := ⟨"p43200", ⟨86400, 43200, 0⟩, calculateNextRun 0 86400 43200 0 0⟩

def taskP3600 : Task := ⟨"p3600", ⟨86400, 3600, 0⟩, calculateNextRun 0 86400 3600 0 0⟩

def scenarioHeap : List Task := pushHeap (pushHeap (pushHeap [] taskP0) taskP43200) taskP3600

/-- A script whose `position` (25) is not below its `period` (10). -/
def badScript : Script := ⟨"bad", some ⟨true, some 10, some 25, some 0⟩⟩

/-- Concrete operation sequence and expected minimum for the heap witness. -/
def wOps : List HeapOp :=
  [.hpush ⟨"a", ⟨1, 0, 0⟩, 5⟩, .hpush ⟨"b", ⟨1, 0, 0⟩, 3⟩, .hpush ⟨"c", ⟨1, 0, 0⟩, 9⟩]

def wMin : Task := ⟨"b", ⟨1, 0, 0⟩, 3⟩

/-- Concrete store for the snapshot witness: the heap array lives in cell 0. -/
def demoStore : ArrStore := ⟨[[taskP0, taskP43200]]⟩

/-! ## Theorems -/

@[simp] lemma lswap_length (l : List Task) (i j : Nat) :
    (lswap l i j).length = l.length := by
  simp [lswap]

lemma minChildIdx_ne (l : List Task) (i : Nat) (h : minChildIdx l i ≠ i) :
    i < minChildIdx l i ∧ minChildIdx l i < l.length := by
  unfold minChildIdx minChild1 at *
  split_ifs at h ⊢ <;> omega

lemma lget_set_self (l : List Task) (i : Nat) (x : Task) (h : i < l.length) :
    lget (l.set i x) i = x := by
  simp [lget, List.getD_eq_getElem?_getD, List.getElem?_set_self h]

lemma lget_set_ne (l : List Task) (i j : Nat) (x : Task) (h : i ≠ j) :
    lget (l.set i x) j = lget l j := by
  simp [lget, List.getD_eq_getElem?_getD, List.getElem?_set_ne h]

lemma lget_lswap_fst (l : List Task) (i j : Nat) (hi : i < l.length) (hj : j < l.length) :
    lget (lswap l i j) i = lget l j := by
  unfold lswap
  by_cases hij : j = i
  · subst hij
    rw [lget_set_self _ _ _ (by simpa using hj)]
  · rw [lget_set_ne _ _ _ _ hij, lget_set_self _ _ _ hi]

lemma lget_lswap_snd (l : List Task) (i j : Nat) (hi : i < l.length) (hj : j < l.length) :
    lget (lswap l i j) j = lget l i := by
  unfold lswap
  rw [lget_set_self _ _ _ (by simpa using hj)]

lemma lget_lswap_other (l : List Task) (i j k : Nat) (hki : k ≠ i) (hkj : k ≠ j) :
    lget (lswap l i j) k = lget l k := by
  unfold lswap
  rw [lget_set_ne _ _ _ _ (Ne.symm hkj), lget_set_ne _ _ _ _ (Ne.symm hki)]

lemma keyAt_lswap_fst (l : List Task) (i j : Nat) (hi : i < l.length) (hj : j < l.length) :
    keyAt (lswap l i j) i = keyAt l j := by
  unfold keyAt; rw [lget_lswap_fst l i j hi hj]

lemma keyAt_lswap_snd (l : List Task) (i j : Nat) (hi : i < l.length) (hj : j < l.length) :
    keyAt (lswap l i j) j = keyAt l i := by
  unfold keyAt; rw [lget_lswap_snd l i j hi hj]

lemma keyAt_lswap_other (l : List Task) (i j k : Nat) (hki : k ≠ i) (hkj : k ≠ j) :
    keyAt (lswap l i j) k = keyAt l k := by
  unfold keyAt; rw [lget_lswap_other l i j k hki hkj]

lemma keyAt_append_lt (l l₂ : List Task) (k : Nat) (h : k < l.length) :
    keyAt (l ++ l₂) k = keyAt l k := by
  unfold keyAt lget
  rw [List.getD_append _ _ _ _ h]

lemma heapInv_root_le (l : List Task) (hl : heapInv l) :
    ∀ j, j < l.length → keyAt l 0 ≤ keyAt l j := by
  intro j
  induction j using Nat.strong_induction_on with
  | _ j ih =>
    intro hj
    rcases Nat.eq_zero_or_pos j with h0 | h0
    · subst h0; exact le_refl _
    · have hp : parentIdx j < j := by simp only [parentIdx]; omega
      exact le_trans (ih (parentIdx j) hp (lt_trans hp hj)) (hl j h0 hj)

lemma upInv_step (l : List Task) (i : Nat) (hi : 0 < i) (hlen : i < l.length)
    (hkey : keyAt l i < keyAt l (parentIdx i)) (h : upInv l i) :
    upInv (lswap l (parentIdx i) i) (parentIdx i) := by
  obtain ⟨h1, h2⟩ := h
  have hpi : parentIdx i < i := by simp only [parentIdx]; omega
  have hplen : parentIdx i < l.length := lt_trans hpi hlen
  constructor
  · intro j hj0 hjlen hjne
    rw [lswap_length] at hjlen
    by_cases hji : j = i
    · subst hji
      rw [keyAt_lswap_fst l (parentIdx j) j hplen hlen,
        keyAt_lswap_snd l (parentIdx j) j hplen hlen]
      exact le_of_lt hkey
    · by_cases hpj : parentIdx j = i
      · rw [hpj, keyAt_lswap_snd l (parentIdx i) i hplen hlen,
          keyAt_lswap_other l (parentIdx i) i j hjne hji]
        exact h2 j hjlen hi hpj
      · by_cases hpjp : parentIdx j = parentIdx i
        · rw [hpjp, keyAt_lswap_fst l (parentIdx i) i hplen hlen,
            keyAt_lswap_other l (parentIdx i) i j hjne hji]
          have hj1 := h1 j hj0 hjlen hji
          rw [hpjp] at hj1
          exact le_trans (le_of_lt hkey) hj1
        · rw [keyAt_lswap_other l (parentIdx i) i (parentIdx j) hpjp hpj,
            keyAt_lswap_other l (parentIdx i) i j hjne hji]
          exact h1 j hj0 hjlen hji
  · intro j hjlen hp0 hpj
    rw [lswap_length] at hjlen
    have hg_ne_p : parentIdx (parentIdx i) ≠ parentIdx i := by
      simp only [parentIdx] at *; omega
    have hg_ne_i : parentIdx (parentIdx i) ≠ i := by
      simp only [parentIdx] at *; omega
    rw [keyAt_lswap_other l (parentIdx i) i (parentIdx (parentIdx i)) hg_ne_p hg_ne_i]
    by_cases hji : j = i
    · subst hji
      rw [keyAt_lswap_snd l (parentIdx j) j hplen hlen]
      exact h1 (parentIdx j) hp0 hplen (ne_of_lt hpi)
    · have hjne_p : j ≠ parentIdx i := by
        intro hc; subst hc
        simp only [parentIdx] at hpj hp0; omega
      rw [keyAt_lswap_other l (parentIdx i) i j hjne_p hji]
      have hj0 : 0 < j := by simp only [parentIdx] at hpj hp0 ⊢; omega
      have l1 := h1 j hj0 hjlen hji
      rw [hpj] at l1
      exact le_trans (h1 (parentIdx i) hp0 hplen (ne_of_lt hpi)) l1

lemma heapifyUpF_heapInv : ∀ (fuel : Nat) (l : List Task) (i : Nat), i ≤ fuel →
    i < l.length → upInv l i → heapInv (heapifyUpF fuel l i)
  | 0, l, i, hfu, hlen, h => by
      intro j hj0 hjlen
      exact h.1 j hj0 hjlen (by omega)
  | fuel + 1, l, i, hfu, hlen, h => by
      simp only [heapifyUpF]
      split_ifs with h0 hk
      · have hpi : parentIdx i < i := by simp only [parentIdx]; omega
        exact heapifyUpF_heapInv fuel _ (parentIdx i)
          (by simp only [parentIdx]; omega)
          (by rw [lswap_length]; exact lt_trans hpi hlen)
          (upInv_step l i h0 hlen hk h)
      · intro j hj0 hjlen
        by_cases hji : j = i
        · subst hji; exact not_lt.mp hk
        · exact h.1 j hj0 hjlen hji
      · intro j hj0 hjlen
        exact h.1 j hj0 hjlen (by omega)

lemma heapifyUp_heapInv (l : List Task) (i : Nat) (hlen : i < l.length) (h : upInv l i) :
    heapInv (heapifyUp l i) :=
  heapifyUpF_heapInv i l i (le_refl i) hlen h

lemma set_cons_perm : ∀ (t : List Task) (j : Nat) (b : Task), j < t.length →
    List.Perm (lget t j :: t.set j b) (b :: t)
  | [], j, b, h => by simp at h
  | c :: u, 0, b, _ => by
      simpa [lget] using List.Perm.swap b c u
  | c :: u, j + 1, b, h => by
      have hj : j < u.length := by simpa using h
      have step1 : List.Perm (lget u j :: c :: u.set j b) (c :: lget u j :: u.set j b) :=
        List.Perm.swap c (lget u j) (u.set j b)
      have step2 : List.Perm (c :: lget u j :: u.set j b) (c :: b :: u) :=
        (set_cons_perm u j b hj).cons c
      have step3 : List.Perm (c :: b :: u) (b :: c :: u) := List.Perm.swap b c u
      simpa [lget] using (step1.trans step2).trans step3

lemma lswap_perm : ∀ (l : List Task) (i j : Nat), i < l.length → j < l.length →
    List.Perm (lswap l i j) l
  | [], i, j, hi, _ => by simp at hi
  | b :: t, 0, 0, _, _ => by
      simp [lswap, lget]
  | b :: t, 0, j + 1, _, hj => by
      have hj' : j < t.length := by simpa using hj
      simpa [lswap, lget] using set_cons_perm t j b hj'
  | b :: t, i + 1, 0, hi, _ => by
      have hi' : i < t.length := by simpa using hi
      simpa [lswap, lget] using set_cons_perm t i b hi'
  | b :: t, i + 1, j + 1, hi, hj => by
      have hi' : i < t.length := by simpa using hi
      have hj' : j < t.length := by simpa using hj
      simpa [lswap, lget] using (lswap_perm t i j hi' hj').cons b

lemma heapifyUpF_perm : ∀ (fuel : Nat) (l : List Task) (i : Nat), i ≤ fuel →
    i < l.length → List.Perm (heapifyUpF fuel l i) l
  | 0, l, _, _, _ => List.Perm.refl l
  | fuel + 1, l, i, hfu, hlen => by
      simp only [heapifyUpF]
      split_ifs with h0 hk
      · have hpi : parentIdx i < i := by simp only [parentIdx]; omega
        exact (heapifyUpF_perm fuel _ (parentIdx i)
          (by simp only [parentIdx]; omega)
          (by rw [lswap_length]; exact lt_trans hpi hlen)).trans
          (lswap_perm l (parentIdx i) i (lt_trans hpi hlen) hlen)
      · exact .rfl
      · exact .rfl

lemma heapifyUp_perm (l : List Task) (i : Nat) (hi : i < l.length) :
    List.Perm (heapifyUp l i) l := heapifyUpF_perm i l i (le_refl i) hi

lemma pushHeap_perm (l : List Task) (t : Task) : List.Perm (pushHeap l t) (l ++ [t]) :=
  heapifyUp_perm (l ++ [t]) l.length (by simp)

lemma pushHeap_length (l : List Task) (t : Task) :
    (pushHeap l t).length = l.length + 1 := by
  have h := (pushHeap_perm l t).length_eq
  simpa using h

lemma upInv_push (l : List Task) (t : Task) (h : heapInv l) : upInv (l ++ [t]) l.length := by
  constructor
  · intro j hj0 hjlen hjne
    have hlen : (l ++ [t]).length = l.length + 1 := by simp
    rw [hlen] at hjlen
    have hjl : j < l.length := by omega
    have hpj : parentIdx j < l.length := by simp only [parentIdx]; omega
    rw [keyAt_append_lt _ _ _ hpj, keyAt_append_lt _ _ _ hjl]
    exact h j hj0 hjl
  · intro j hjlen h0 hpj
    exfalso
    have hlen : (l ++ [t]).length = l.length + 1 := by simp
    rw [hlen] at hjlen
    simp only [parentIdx] at hpj
    omega

lemma pushHeap_heapInv (l : List Task) (t : Task) (h : heapInv l) : heapInv (pushHeap l t) :=
  heapifyUp_heapInv (l ++ [t]) l.length (by simp) (upInv_push l t h)

lemma minChildIdx_le_self (l : List Task) (i : Nat) :
    keyAt l (minChildIdx l i) ≤ keyAt l i := by
  unfold minChildIdx minChild1
  by_cases hA : 2 * i + 1 < l.length ∧ keyAt l (2 * i + 1) < keyAt l i
  · rw [if_pos hA]
    by_cases hB : 2 * i + 2 < l.length ∧ keyAt l (2 * i + 2) < keyAt l (2 * i + 1)
    · rw [if_pos hB]; exact le_of_lt (lt_trans hB.2 hA.2)
    · rw [if_neg hB]; exact le_of_lt hA.2
  · rw [if_neg hA]
    by_cases hB : 2 * i + 2 < l.length ∧ keyAt l (2 * i + 2) < keyAt l i
    · rw [if_pos hB]; exact le_of_lt hB.2
    · rw [if_neg hB]

lemma minChildIdx_le_children (l : List Task) (i j : Nat) (hj : j < l.length)
    (hpj : parentIdx j = i) (hj0 : 0 < j) :
    keyAt l (minChildIdx l i) ≤ keyAt l j := by
  have hcase : j = 2 * i + 1 ∨ j = 2 * i + 2 := by
    simp only [parentIdx] at hpj; omega
  unfold minChildIdx minChild1
  rcases hcase with hc | hc <;> subst hc
  · by_cases hA : 2 * i + 1 < l.length ∧ keyAt l (2 * i + 1) < keyAt l i
    · rw [if_pos hA]
      by_cases hB : 2 * i + 2 < l.length ∧ keyAt l (2 * i + 2) < keyAt l (2 * i + 1)
      · rw [if_pos hB]; exact le_of_lt hB.2
      · rw [if_neg hB]
    · have hik : keyAt l i ≤ keyAt l (2 * i + 1) := by
        rcases not_and_or.mp hA with hc | hc
        · exact absurd hj hc
        · exact not_lt.mp hc
      rw [if_neg hA]
      by_cases hB : 2 * i + 2 < l.length ∧ keyAt l (2 * i + 2) < keyAt l i
      · rw [if_pos hB]; exact le_trans (le_of_lt hB.2) hik
      · rw [if_neg hB]; exact hik
  · by_cases hA : 2 * i + 1 < l.length ∧ keyAt l (2 * i + 1) < keyAt l i
    · rw [if_pos hA]
      by_cases hB : 2 * i + 2 < l.length ∧ keyAt l (2 * i + 2) < keyAt l (2 * i + 1)
      · rw [if_pos hB]
      · rw [if_neg hB]
        rcases not_and_or.mp hB with hc | hc
        · exact absurd hj hc
        · exact not_lt.mp hc
    · rw [if_neg hA]
      by_cases hB : 2 * i + 2 < l.length ∧ keyAt l (2 * i + 2) < keyAt l i
      · rw [if_pos hB]
      · rw [if_neg hB]
        rcases not_and_or.mp hB with hc | hc
        · exact absurd hj hc
        · exact not_lt.mp hc

lemma minChildIdx_parent (l : List Task) (i : Nat) (h : minChildIdx l i ≠ i) :
    parentIdx (minChildIdx l i) = i := by
  unfold minChildIdx minChild1 at *
  simp only [parentIdx]
  split_ifs at h ⊢ <;> omega

lemma minChildIdx_out (l : List Task) (i : Nat) (h : l.length ≤ 2 * i + 1) :
    minChildIdx l i = i := by
  unfold minChildIdx minChild1
  have hA : ¬(2 * i + 1 < l.length ∧ keyAt l (2 * i + 1) < keyAt l i) :=
    fun hc => absurd hc.1 (by omega)
  rw [if_neg hA]
  have hB : ¬(2 * i + 2 < l.length ∧ keyAt l (2 * i + 2) < keyAt l i) :=
    fun hc => absurd hc.1 (by omega)
  rw [if_neg hB]

lemma downInv_step (l : List Task) (i : Nat)
    (hne : minChildIdx l i ≠ i) (h : downInv l i) :
    downInv (lswap l i (minChildIdx l i)) (minChildIdx l i) := by
  obtain ⟨h1, h2⟩ := h
  obtain ⟨him, hmlen⟩ := minChildIdx_ne l i hne
  have hilen : i < l.length := lt_trans him hmlen
  have hpm : parentIdx (minChildIdx l i) = i := minChildIdx_parent l i hne
  constructor
  · intro j hj0 hjlen hpj
    rw [lswap_length] at hjlen
    by_cases hji : j = i
    · subst hji
      have hppi : parentIdx j < j := by simp only [parentIdx]; omega
      have hpne_i : parentIdx j ≠ j := ne_of_lt hppi
      have hpne_m : parentIdx j ≠ minChildIdx l j := by omega
      rw [keyAt_lswap_other l j (minChildIdx l j) (parentIdx j) hpne_i hpne_m,
        keyAt_lswap_fst l j (minChildIdx l j) hilen hmlen]
      exact h2 (minChildIdx l j) hmlen hj0 hpm
    · by_cases hjm : j = minChildIdx l i
      · rw [hjm, hpm, keyAt_lswap_fst l i (minChildIdx l i) hilen hmlen,
          keyAt_lswap_snd l i (minChildIdx l i) hilen hmlen]
        exact minChildIdx_le_self l i
      · by_cases hpji : parentIdx j = i
        · rw [hpji, keyAt_lswap_fst l i (minChildIdx l i) hilen hmlen,
            keyAt_lswap_other l i (minChildIdx l i) j hji hjm]
          exact minChildIdx_le_children l i j hjlen hpji hj0
        · rw [keyAt_lswap_other l i (minChildIdx l i) (parentIdx j) hpji hpj,
            keyAt_lswap_other l i (minChildIdx l i) j hji hjm]
          exact h1 j hj0 hjlen hpji
  · intro j hjlen hm0 hpj
    rw [lswap_length] at hjlen
    have hj_gt : minChildIdx l i < j := by
      simp only [parentIdx] at hpj; omega
    have hji : j ≠ i := by omega
    have hjm : j ≠ minChildIdx l i := by omega
    rw [hpm, keyAt_lswap_fst l i (minChildIdx l i) hilen hmlen,
      keyAt_lswap_other l i (minChildIdx l i) j hji hjm]
    have hj0 : 0 < j := by omega
    have hpj_ne : parentIdx j ≠ i := by omega
    have := h1 j hj0 hjlen hpj_ne
    rw [hpj] at this
    exact this

lemma downInv_stop (l : List Task) (i : Nat) (h : minChildIdx l i = i) (hd : downInv l i) :
    heapInv l := by
  intro j hj0 hjlen
  by_cases hpj : parentIdx j = i
  · have hmin := minChildIdx_le_children l i j hjlen hpj hj0
    rw [h] at hmin
    rw [hpj]; exact hmin
  · exact hd.1 j hj0 hjlen hpj

lemma heapifyDownF_heapInv : ∀ (fuel : Nat) (l : List Task) (i : Nat),
    l.length ≤ i + fuel → downInv l i → heapInv (heapifyDownF fuel l i)
  | 0, l, i, hf, hd => by
      have hm : minChildIdx l i = i := minChildIdx_out l i (by omega)
      exact downInv_stop l i hm hd
  | fuel + 1, l, i, hf, hd => by
      simp only [heapifyDownF]
      split_ifs with h
      · obtain ⟨him, hmlen⟩ := minChildIdx_ne l i h
        exact heapifyDownF_heapInv fuel _ _ (by rw [lswap_length]; omega)
          (downInv_step l i h hd)
      · exact downInv_stop l i (not_ne_iff.mp h) hd

lemma heapifyDown_heapInv (l : List Task) (i : Nat) (hd : downInv l i) :
    heapInv (heapifyDown l i) :=
  heapifyDownF_heapInv l.length l i (by omega) hd

lemma heapifyDownF_perm : ∀ (fuel : Nat) (l : List Task) (i : Nat),
    List.Perm (heapifyDownF fuel l i) l
  | 0, l, _ => List.Perm.refl l
  | fuel + 1, l, i => by
      simp only [heapifyDownF]
      split_ifs with h
      · obtain ⟨him, hmlen⟩ := minChildIdx_ne l i h
        exact (heapifyDownF_perm fuel _ _).trans
          (lswap_perm l i (minChildIdx l i) (lt_trans him hmlen) hmlen)
      · exact .rfl

lemma heapifyDown_perm (l : List Task) (i : Nat) : List.Perm (heapifyDown l i) l :=
  heapifyDownF_perm l.length l i

lemma lget_mem (l : List Task) (k : Nat) (h : k < l.length) : lget l k ∈ l := by
  unfold lget
  rw [List.getD_eq_getElem _ _ h]
  exact List.getElem_mem h

lemma heapInv_min_all (l : List Task) (h : heapInv l) (h0 : 0 < l.length) :
    ∀ u ∈ l, (lget l 0).nextRun ≤ u.nextRun := by
  intro u hu
  obtain ⟨k, hk, rfl⟩ := List.getElem_of_mem hu
  have hroot := heapInv_root_le l h k hk
  unfold keyAt lget at hroot
  rw [List.getD_eq_getElem _ _ h0, List.getD_eq_getElem _ _ hk] at hroot
  unfold lget
  rw [List.getD_eq_getElem _ _ h0]
  exact hroot

lemma keyAt_dropLast (l : List Task) (k : Nat) (h : k < l.length - 1) :
    keyAt l.dropLast k = keyAt l k := by
  unfold keyAt lget
  rw [List.getD_eq_getElem _ _ (by simpa using h), List.getD_eq_getElem _ _ (by omega),
    List.getElem_dropLast]

lemma keyAt_set_ne (l : List Task) (i k : Nat) (x : Task) (h : i ≠ k) :
    keyAt (l.set i x) k = keyAt l k := by
  unfold keyAt
  rw [lget_set_ne _ _ _ _ h]

lemma popHeap_heapInv (l : List Task) (h : heapInv l) : heapInv (popHeap l).2 := by
  unfold popHeap
  split_ifs with h0 h1
  · exact h
  · intro j hj0 hjlen
    simp at hjlen
  · apply heapifyDown_heapInv
    constructor
    · intro j hj0 hjlen hpj
      have hlen2 : 2 ≤ l.length := by omega
      have hjlen2 : j < l.length - 1 := by
        simpa using hjlen
      have hplen2 : parentIdx j < l.length - 1 := by
        simp only [parentIdx]; omega
      rw [keyAt_set_ne _ _ _ _ (Ne.symm hpj), keyAt_set_ne _ _ _ _ (by omega),
        keyAt_dropLast _ _ hplen2, keyAt_dropLast _ _ hjlen2]
      exact h j hj0 (by omega)
    · intro j hjlen hc
      exact absurd hc (lt_irrefl 0)

lemma popHeap_min (l : List Task) (h : heapInv l) (t : Task) (ht : (popHeap l).1 = some t) :
    t ∈ l ∧ ∀ u ∈ l, t.nextRun ≤ u.nextRun := by
  have hpos : 0 < l.length := by
    by_contra hc
    have hl0 : l.length = 0 := by omega
    unfold popHeap at ht
    rw [if_pos hl0] at ht
    exact Option.noConfusion ht
  have hfst : (popHeap l).1 = some (lget l 0) := by
    unfold popHeap
    split_ifs with h0 h1
    · exact absurd h0 (by omega)
    · rfl
    · rfl
  rw [hfst] at ht
  have hlt : lget l 0 = t := Option.some.inj ht
  subst hlt
  exact ⟨lget_mem l 0 hpos, heapInv_min_all l h hpos⟩

lemma popHeap_length_some (l : List Task) (t : Task) (ht : (popHeap l).1 = some t) :
    (popHeap l).2.length = l.length - 1 := by
  unfold popHeap at ht ⊢
  split_ifs at ht ⊢ with h0 h1
  all_goals try simp at ht
  all_goals try simp [h1]
  · have hperm := (heapifyDown_perm (l.dropLast.set 0 (lget l (l.length - 1))) 0).length_eq
    simp only [List.length_set, List.length_dropLast] at hperm
    exact hperm

lemma popHeap_none (l : List Task) (ht : (popHeap l).1 = none) : (popHeap l).2 = l := by
  unfold popHeap at ht ⊢
  split_ifs at ht ⊢ with h0 h1
  all_goals first | rfl | simp at ht

lemma stepOp_inv (s : OpsState) (op : HeapOp) (h : opsInv s) : opsInv (stepOp s op) := by
  obtain ⟨h1, h2⟩ := h
  cases op with
  | hpush t =>
    refine ⟨pushHeap_heapInv _ _ h1, ?_⟩
    simp only [stepOp, pushHeap_length]
    omega
  | hpop =>
    rcases hpop : popHeap s.heap with ⟨fst, snd⟩
    cases fst with
    | none =>
      have hsnd : snd = s.heap := by
        have hn := popHeap_none s.heap (by rw [hpop])
        rw [hpop] at hn; exact hn
      subst hsnd
      simpa only [stepOp, hpop] using And.intro h1 h2
    | some t =>
      have hlen : snd.length = s.heap.length - 1 := by
        have hp := popHeap_length_some s.heap t (by rw [hpop])
        rw [hpop] at hp; exact hp
      have hInv : heapInv snd := by
        have hp := popHeap_heapInv s.heap h1
        rw [hpop] at hp; exact hp
      have hne : 0 < s.heap.length := by
        by_contra hc
        have hl0 : s.heap.length = 0 := by omega
        unfold popHeap at hpop
        rw [if_pos hl0] at hpop
        exact Option.noConfusion (congrArg Prod.fst hpop)
      refine ⟨?_, ?_⟩
      · simpa only [stepOp, hpop] using hInv
      · simp only [stepOp, hpop, hlen]
        omega

lemma runOps_inv (ops : List HeapOp) : opsInv (runOps ops) := by
  have hgen : ∀ s, opsInv s → opsInv (ops.foldl stepOp s) := by
    induction ops with
    | nil => intro s hs; exact hs
    | cons op rest ih => intro s hs; exact ih _ (stepOp_inv s op hs)
  refine hgen _ ⟨?_, rfl⟩
  intro j hj0 hjlen
  exact absurd hjlen (by simp)

/-! ### Shared facts about `pushHeap` contents and `calculateNextRun` -/

lemma countName_pushHeap (l : List Task) (t : Task) (n : String) :
    countName (pushHeap l t) n = countName l n + (if t.name = n then 1 else 0) := by
  unfold countName
  rw [(pushHeap_perm l t).countP_eq, List.countP_append, List.countP_cons]
  simp [beq_iff_eq]

lemma mem_pushHeap_iff (l : List Task) (t u : Task) :
    u ∈ pushHeap l t ↔ u ∈ l ∨ u = t := by
  rw [(pushHeap_perm l t).mem_iff]
  simp

/-- Core of the future guarantee that `calculateNextRun` actually provides:
the result is strictly beyond `now` whenever the jitter bound does not
exceed the position. -/
lemma calculateNextRun_gt (now period position offset draw : Int)
    (hper : 0 < period) (hdraw0 : 0 ≤ draw) (hop : offset ≤ position) :
    now < calculateNextRun now period position offset draw := by
  simp only [calculateNextRun]
  have hnow := Int.fdiv_add_fmod now 1000
  have hnow0 : 0 ≤ Int.fmod now 1000 := Int.fmod_nonneg' now (by norm_num)
  have hnow1 : Int.fmod now 1000 < 1000 := Int.fmod_lt_of_pos now (by norm_num)
  have hps := Int.fdiv_add_fmod (Int.fdiv now 1000 + period) period
  have hps0 : 0 ≤ Int.fmod (Int.fdiv now 1000 + period) period := Int.fmod_nonneg' _ hper
  have hps1 : Int.fmod (Int.fdiv now 1000 + period) period < period :=
    Int.fmod_lt_of_pos _ hper
  nlinarith [hnow, hnow0, hnow1, hps, hps0, hps1]

/-! ### Claim theorems -/

/-- C1 (counterexample): in the scenario — three tasks with period `86400` s,
positions `0`/`43200`/`3600` s, jitter `0`, evaluated at `now = 0` — the
claimed `nextRun` values `43200000` ms and `3600000` ms and the claimed
`peekMin` result (the position-`3600` task) are all wrong for this code. -/
theorem scheduler_scenario_claim_false :
    ¬ (calculateNextRun 0 86400 43200 0 0 = 43200000 ∧
       calculateNextRun 0 86400 3600 0 0 = 3600000 ∧
       peekHeap scenarioHeap = some taskP3600) := by decide

/-- C1 (amended): `calculateNextRun` always anchors to the period after
`now` (`nowSeconds + period` before flooring), so at `now = 0` the three
scenario tasks get `nextRun` `86400000`, `129600000` and `90000000` ms, and
`peek()` returns the position-`0` task, which has the minimal `nextRun`. -/
theorem scheduler_scenario_actual :
    calculateNextRun 0 86400 0 0 0 = 86400000 ∧
    calculateNextRun 0 86400 43200 0 0 = 129600000 ∧
    calculateNextRun 0 86400 3600 0 0 = 90000000 ∧
    peekHeap scenarioHeap = some taskP0 ∧
    taskP0.schedule.position = 0 := by decide

/-- C2 (counterexample): the future guarantee fails as stated: with
`now = 86399000` ms, `period = 86400` s, `position = 0`, `jitter = 3600` s
and the draw that realises `randomOffset = -3600`, all of the claim's
constraints hold yet the result `82800000` ms is not beyond `now` — the code
has no `target <= now → target += period` step. -/
theorem calculateNextRun_future_claim_false :
    (0:Int) < 86400 ∧ (0:Int) ≤ 0 ∧ (0:Int) < 86400 ∧ (0:Int) ≤ 3600 ∧
    (0:Int) ≤ 0 ∧ (0:Int) ≤ 2 * 3600 ∧
    calculateNextRun 86399000 86400 0 3600 0 = 82800000 ∧
    ¬ (86399000 < calculateNextRun 86399000 86400 0 3600 0) := by decide

/-- C2 (amended): for every `now`, `period > 0`, `position ∈ [0, period)`,
`jitter ≥ 0` and every admissible jitter draw, the returned timestamp is
strictly greater than `now` **provided** `jitter ≤ position`; in particular
the guarantee holds for `jitter = 0`. -/
theorem calculateNextRun_future_of_jitter_le_position
    (now period position offset draw : Int)
    (hper : 0 < period) (hpos0 : 0 ≤ position) (hposp : position < period)
    (hoff0 : 0 ≤ offset) (hdraw0 : 0 ≤ draw) (hdraw2 : draw ≤ 2 * offset)
    (hop : offset ≤ position) :
    now < calculateNextRun now period position offset draw :=
  calculateNextRun_gt now period position offset draw hper hdraw0 hop

/-- Witness for `calculateNextRun_future_of_jitter_le_position` at
`now = 5000`, `period = 10`, `position = 3`, `jitter = 2`, draw `0`. -/
theorem calculateNextRun_future_witness :
    ((0:Int) < 10 ∧ (0:Int) ≤ 3 ∧ (3:Int) < 10 ∧ (0:Int) ≤ 2 ∧ (0:Int) ≤ 0 ∧
      (0:Int) ≤ 2 * 2 ∧ (2:Int) ≤ 3) ∧
    (5000:Int) < calculateNextRun 5000 10 3 2 0 :=
  ⟨by decide,
    calculateNextRun_future_of_jitter_le_position 5000 10 3 2 0 (by decide) (by decide)
      (by decide) (by decide) (by decide) (by decide) (by decide)⟩

/-- C3 (counterexample): a dispatch of a task with position `0` s and jitter
`3600` s beginning at `t0 = 86399000` ms pushes the task back exactly once,
but with `nextRun = 82800000` ms, which is **not** strictly greater than the
time the dispatch began. -/
theorem executeTask_reschedule_claim_false :
    executeTask ⟨"t", ⟨86400, 0, 3600⟩, 0⟩ .success [] 86399000 0 =
      [⟨"t", ⟨86400, 0, 3600⟩, 82800000⟩] ∧
    countName (executeTask ⟨"t", ⟨86400, 0, 3600⟩, 0⟩ .success [] 86399000 0) "t" = 1 ∧
    ¬ ((86399000:Int) < (82800000:Int)) := by decide

/-- C3 (amended): after any dispatch outcome (success, reported failure,
thrown `execute`, failed session acquisition, failed teardown) the dispatch
unconditionally adds exactly one entry with the task's name back to the heap
— so a task absent at dispatch time (it was popped before dispatch) is
present exactly once afterwards, for every task, every jitter configuration
and every draw.  Its new `nextRun` is strictly greater than the time the
dispatch began **provided** the task's jitter bound does not exceed its
position (in particular for jitter `0`). -/
theorem executeTask_reschedules_exactly_once
    (task : Task) (out : Outcome) (heap : List Task) (t0 tNow draw : Int) :
    countName (executeTask task out heap tNow draw) task.name
      = countName heap task.name + 1 ∧
    (countName heap task.name = 0 →
      countName (executeTask task out heap tNow draw) task.name = 1) ∧
    (countName heap task.name = 0 → t0 ≤ tNow → 0 ≤ draw →
      task.schedule.offset ≤ task.schedule.position → 0 < task.schedule.period →
      ∀ u ∈ executeTask task out heap tNow draw, u.name = task.name → t0 < u.nextRun) := by
  have hpush : executeTask task out heap tNow draw
      = pushHeap heap (rescheduled task tNow draw) := by
    cases out <;> rfl
  rw [hpush]
  have hone : countName (pushHeap heap (rescheduled task tNow draw)) task.name
      = countName heap task.name + 1 := by
    rw [countName_pushHeap]
    simp [rescheduled]
  refine ⟨hone, fun hcount => by rw [hone, hcount], ?_⟩
  intro hcount ht hdraw0 hop hper u hu hname
  rcases (mem_pushHeap_iff heap (rescheduled task tNow draw) u).mp hu with hmem | heq
  · exfalso
    unfold countName at hcount
    exact List.countP_eq_zero.mp hcount u hmem (by simp [hname])
  · subst heq
    have hgt := calculateNextRun_gt tNow task.schedule.period task.schedule.position
      task.schedule.offset draw hper hdraw0 hop
    simp only [rescheduled]
    exact lt_of_le_of_lt ht hgt

/-- Witness for `executeTask_reschedules_exactly_once`: a jitter-3600 task
(jitter above position) dispatched at `86399000` ms is still re-inserted
exactly once, and a jitter-0 task with position `3600` s dispatched at time
`0` is rescheduled once, in the future. -/
theorem executeTask_reschedules_witness :
    countName (executeTask ⟨"t", ⟨86400, 0, 3600⟩, 0⟩ .execThrows [] 86399000 0) "t" = 1 ∧
    countName (executeTask ⟨"w", ⟨86400, 3600, 0⟩, 0⟩ .success [] 0 0) "w" = 1 ∧
    (0:Int) < 90000000 := by
  have hbig := executeTask_reschedules_exactly_once ⟨"t", ⟨86400, 0, 3600⟩, 0⟩
    .execThrows [] 86399000 0 86399000
  have h := executeTask_reschedules_exactly_once ⟨"w", ⟨86400, 3600, 0⟩, 0⟩ .success [] 0 0 0
  refine ⟨hbig.2.1 (by decide), h.2.1 (by decide), ?_⟩
  have hm : (⟨"w", ⟨86400, 3600, 0⟩, 90000000⟩ : Task)
      ∈ executeTask ⟨"w", ⟨86400, 3600, 0⟩, 0⟩ .success [] 0 0 := by decide
  simpa using h.2.2 (by decide) (by decide) (by decide) (by decide) (by decide) _ hm (by decide)

/-- C6: for every finite sequence of `push`/`pop` operations, the resulting
array satisfies the binary-heap invariant, the size equals pushes minus
non-empty pops, and a `pop()` of a non-empty reachable heap returns an
element of the heap whose `nextRun` is minimal among the elements present. -/
theorem minHeap_ops_correct (ops : List HeapOp) :
    heapInv (runOps ops).heap ∧
    ((runOps ops).pops ≤ (runOps ops).pushes ∧
      sizeHeap (runOps ops).heap = (runOps ops).pushes - (runOps ops).pops) ∧
    ∀ t, (popHeap (runOps ops).heap).1 = some t →
      t ∈ (runOps ops).heap ∧ ∀ u ∈ (runOps ops).heap, t.nextRun ≤ u.nextRun := by
  obtain ⟨h1, h2⟩ := runOps_inv ops
  refine ⟨h1, ⟨by omega, by unfold sizeHeap; omega⟩, ?_⟩
  intro t ht
  exact popHeap_min _ h1 t ht

/-- Witness for `minHeap_ops_correct`: pushing keys `5`, `3`, `9` and popping
returns the key-`3` task, which is in the heap and at most the key-`5` one. -/
theorem minHeap_ops_correct_witness :
    (popHeap (runOps wOps).heap).1 = some wMin ∧ wMin ∈ (runOps wOps).heap ∧
    wMin.nextRun ≤ (5:Int) := by
  refine ⟨by decide, ((minHeap_ops_correct wOps).2.2 wMin (by decide)).1, ?_⟩
  have h := ((minHeap_ops_correct wOps).2.2 wMin (by decide)).2 ⟨"a", ⟨1, 0, 0⟩, 5⟩ (by decide)
  simpa using h

lemma periodTruthy_iff (o : Option Int) : periodTruthy o = true ↔ ∃ p, o = some p ∧ p ≠ 0 := by
  cases o <;> simp [periodTruthy]

lemma pushHeap_singleton (t : Task) : pushHeap [] t = [t] := rfl

/-- C7 (counterexample): registry population does **not** reject a unit whose
`position` (25) is at least its `period` (10) — the unit is accepted and
inserted into the heap — and a negative period is also accepted. -/
theorem initialize_accepts_invalid_position :
    acceptScript badScript = true ∧
    (10:Int) ≤ 25 ∧
    populateHeap 0 [badScript] [] [] = [⟨"bad", ⟨10, 25, 0⟩, 35000⟩] ∧
    (populateHeap 0 [badScript] [] []).length ≠ 0 ∧
    acceptScript ⟨"neg", some ⟨true, some (-5), some 0, some 0⟩⟩ = true := by decide

/-- C7 (amended): `initialize` inserts exactly one heap entry for a unit iff
its schedule exists, is enabled, its `period` is defined and non-zero
(JS truthiness — negative periods pass), and its `position` is defined;
no `position < period` or `period > 0` check is performed. -/
theorem initialize_validation (tNow : Int) (s : Script) (draws : List Int) :
    (populateHeap tNow [s] draws []).length = (if acceptScript s then 1 else 0) ∧
    (acceptScript s = true ↔ ∃ sch, s.schedule = some sch ∧ sch.enabled = true ∧
      (∃ p, sch.period = some p ∧ p ≠ 0) ∧ sch.position.isSome = true) ∧
    (∀ sch, s.schedule = some sch → acceptScript s = true →
      populateHeap tNow [s] draws [] = [mkTask tNow s.name sch (draws.headD 0)]) := by
  refine ⟨?_, ?_, ?_⟩
  · cases hs : s.schedule with
    | none => simp [populateHeap, acceptScript, hs]
    | some sch =>
      by_cases hacc : sch.enabled && periodTruthy sch.period && sch.position.isSome
      · simp [populateHeap, acceptScript, hs, hacc, pushHeap_length]
      · simp [populateHeap, acceptScript, hs, hacc]
  · cases hs : s.schedule with
    | none => simp [acceptScript, hs]
    | some sch =>
      simp [acceptScript, hs, Bool.and_eq_true, periodTruthy_iff]
      tauto
  · intro sch hs hacc
    rw [acceptScript, hs] at hacc
    simp only [Bool.and_eq_true] at hacc
    obtain ⟨⟨h1, h2⟩, h3⟩ := hacc
    simp [populateHeap, hs, pushHeap_singleton, h1, h2, h3]

/-- Witness for `initialize_validation`: the `position ≥ period` unit is
accepted and inserted as is. -/
theorem initialize_validation_witness :
    badScript.schedule = some ⟨true, some 10, some 25, some 0⟩ ∧
    acceptScript badScript = true ∧
    populateHeap 0 [badScript] [] [] = [mkTask 0 "bad" ⟨true, some 10, some 25, some 0⟩ 0] :=
  ⟨rfl, by decide,
    (initialize_validation 0 badScript []).2.2 ⟨true, some 10, some 25, some 0⟩ rfl (by decide)⟩

/-- C9: once `initialize` has completed successfully (the `initialized` flag
is set), any further call — even at another time, with another script list or
other jitter draws — returns the state unchanged: no re-scan, no heap
modification. -/
theorem initialize_idempotent (t1 t2 : Int) (scripts1 scripts2 : List Script)
    (draws1 draws2 : List Int) (st : SchedState) :
    initializeModel t2 scripts2 draws2 (initializeModel t1 scripts1 draws1 st) =
      initializeModel t1 scripts1 draws1 st := by
  by_cases h : st.initialized <;> simp [initializeModel, h]

lemma handleRequestAux_noncrash {α : Type} (statusOk : Nat → Bool)
    (handler : Nat → Nat → Except String α) (retries : Nat) (d : Nat) (errs : Nat → String)
    (hok : statusOk d = true)
    (herr : ∀ a h, handler a h = .error (errs a))
    (hnc : ∀ a, isSessionCrash (errs a) = false) :
    ∀ (k attempt : Nat) (st : DebugSt), attempt + k = retries → st.debugDriver = some d →
      handleRequestAux statusOk handler retries (k + 1) attempt st =
        (.error (errs retries), { st with attempts := st.attempts + (k + 1) }) := by
  intro k
  induction k with
  | zero =>
    intro attempt st hak hdv
    have ha : attempt = retries := by omega
    subst ha
    simp [handleRequestAux, getDebugDriverM, hdv, hok, herr, hnc]
  | succ n ih =>
    intro attempt st hak hdv
    have hlt : attempt < retries := by omega
    have hner : ¬ attempt = retries := by omega
    have hstep : handleRequestAux statusOk handler retries (n + 1 + 1) attempt st
        = handleRequestAux statusOk handler retries (n + 1) (attempt + 1)
            { st with attempts := st.attempts + 1 } := by
      conv_lhs => rw [handleRequestAux]
      simp only [getDebugDriverM, hdv, hok, if_true, herr, hnc]
      simp [hner]
    rw [hstep, ih (attempt + 1) _ (by omega) (by simp [hdv])]
    have harith : st.attempts + 1 + (n + 1) = st.attempts + (n + 1 + 1) := by omega
    simp [harith]

/-- C4 (counterexample): with `maxRetries = 1` and an operation failing every
time with the non-crash error `"boom"`, the first attempt's error is **not**
surfaced immediately: a second attempt runs and its result (`ok 7`) is
returned. -/
theorem handleRequest_noncrash_claim_false :
    isSessionCrash "boom" = false ∧
    handleRequest (fun _ => true)
      (fun a _ => if a = 0 then Except.error "boom" else Except.ok (7 : Nat)) 1
      ⟨some 0, 0, 1, 0⟩ = (Except.ok 7, ⟨some 0, 0, 1, 2⟩) ∧
    Except.ok (7 : Nat) ≠ Except.error "boom" :=
  ⟨by decide, rfl, by simp⟩

/-- C4 (amended): an attempt failing with a non-crash error never discards
the session handle and never reconnects, but the operation **is** retried:
with a healthy session, `handleRequest` performs all `retries + 1` attempts
and surfaces the last attempt's error, leaving the handle in place. -/
theorem handleRequest_noncrash_no_discard {α : Type} (statusOk : Nat → Bool)
    (handler : Nat → Nat → Except String α) (retries : Nat) (st : DebugSt) (d : Nat)
    (errs : Nat → String)
    (hd : st.debugDriver = some d) (hok : statusOk d = true)
    (herr : ∀ a h, handler a h = .error (errs a))
    (hnc : ∀ a, isSessionCrash (errs a) = false) :
    handleRequest statusOk handler retries st =
      (.error (errs retries), { st with attempts := st.attempts + (retries + 1) }) :=
  handleRequestAux_noncrash statusOk handler retries d errs hok herr hnc retries 0 st
    (by omega) hd

/-- Witness for `handleRequest_noncrash_no_discard`: every attempt fails with
`"boom"`; both attempts run, the handle survives, no reconnect happens. -/
theorem handleRequest_noncrash_no_discard_witness :
    isSessionCrash "boom" = false ∧
    handleRequest (fun _ => true) (fun _ _ => (Except.error "boom" : Except String Nat)) 1
      ⟨some 0, 0, 1, 0⟩ = (Except.error "boom", ⟨some 0, 0, 1, 2⟩) := by
  refine ⟨by decide, ?_⟩
  have h := handleRequest_noncrash_no_discard (fun _ => true)
    (fun _ _ => (Except.error "boom" : Except String Nat)) 1 ⟨some 0, 0, 1, 0⟩ 0
    (fun _ => "boom") rfl rfl (fun a h => rfl)
    (fun _ => (by decide : isSessionCrash "boom" = false))
  simpa using h

/-- C8: if the operation fails on attempt 0 with a crash-signature error and
succeeds on attempt 1, then `handleRequest` with `retries = 1` returns the
second attempt's result, exactly one reconnect happens, and the stale handle
has been replaced by the freshly connected one. -/
theorem handleRequest_crash_recovery {α : Type} (statusOk : Nat → Bool)
    (handler : Nat → Nat → Except String α) (st : DebugSt) (d : Nat) (e0 : String) (v : α)
    (hd : st.debugDriver = some d) (hok : statusOk d = true)
    (h0 : ∀ h, handler 0 h = .error e0) (hcrash : isSessionCrash e0 = true)
    (h1 : ∀ h, handler 1 h = .ok v) :
    handleRequest statusOk handler 1 st =
      (.ok v, ⟨some st.nextHandle, st.connectCount + 1, st.nextHandle + 1, st.attempts + 2⟩) := by
  simp [handleRequest, handleRequestAux, getDebugDriverM, connectNew, hd, hok, h0, h1, hcrash]

/-- Witness for `handleRequest_crash_recovery`: a `"session crashed"` failure
then a success returns `ok 42` after exactly one reconnect. -/
theorem handleRequest_crash_recovery_witness :
    isSessionCrash "session crashed" = true ∧
    handleRequest (fun _ => true)
      (fun a _ => if a = 0 then Except.error "session crashed" else Except.ok (42 : Nat)) 1
      ⟨some 5, 1, 6, 0⟩ = (Except.ok 42, ⟨some 6, 2, 7, 2⟩) := by
  refine ⟨by decide, ?_⟩
  have h := handleRequest_crash_recovery (fun _ => true)
    (fun a _ => if a = 0 then Except.error "session crashed" else Except.ok (42 : Nat))
    ⟨some 5, 1, 6, 0⟩ 5 "session crashed" 42 rfl rfl (fun h => rfl) (by decide) (fun h => rfl)
  simpa using h

/-- C5: two concurrent `startAppiumSession()` callers that both pass the
`if (driver)` check before either `remote(opts)` resolves each perform their
own connect: the connect count ends at 2, not 1, the callers end with
different handles, and the second assignment overwrites the first handle. -/
theorem startAppiumSession_concurrent_double_connect :
    runSched ⟨none, 0, 0, [.ready, .ready]⟩ [0, 1, 0, 1] =
      ⟨some 1, 2, 2, [.finished 0, .finished 1]⟩ ∧
    (2 : Nat) ≠ 1 ∧
    CallerPhase.finished 0 ≠ CallerPhase.finished 1 := by decide

/-- C10: `getAll()` returns a fresh array: the returned reference differs
from the heap's, its contents equal the heap's contents, the heap is
unchanged, and overwriting the returned array afterwards changes neither the
heap's contents nor its size nor the result of `peek()`/`pop()` on it. -/
theorem getAll_returns_fresh_copy (s : ArrStore) (heapRef : Nat)
    (hh : heapRef < s.cells.length) :
    (getAllOp s heapRef).1 ≠ heapRef ∧
    readArr (getAllOp s heapRef).2 (getAllOp s heapRef).1 = readArr s heapRef ∧
    readArr (getAllOp s heapRef).2 heapRef = readArr s heapRef ∧
    ∀ v, readArr (writeArr (getAllOp s heapRef).2 (getAllOp s heapRef).1 v) heapRef
        = readArr s heapRef ∧
      peekHeap (readArr (writeArr (getAllOp s heapRef).2 (getAllOp s heapRef).1 v) heapRef)
        = peekHeap (readArr s heapRef) ∧
      popHeap (readArr (writeArr (getAllOp s heapRef).2 (getAllOp s heapRef).1 v) heapRef)
        = popHeap (readArr s heapRef) ∧
      sizeHeap (readArr (writeArr (getAllOp s heapRef).2 (getAllOp s heapRef).1 v) heapRef)
        = sizeHeap (readArr s heapRef) := by
  have hne : s.cells.length ≠ heapRef := by omega
  have hcopy : readArr ⟨s.cells ++ [readArr s heapRef]⟩ s.cells.length = readArr s heapRef := by
    unfold readArr
    rw [List.getD_append_right _ _ _ _ (le_refl _)]
    simp
  have hunch : readArr ⟨s.cells ++ [readArr s heapRef]⟩ heapRef = readArr s heapRef := by
    unfold readArr
    exact List.getD_append _ _ _ _ hh
  have hwrite : ∀ v,
      readArr (writeArr ⟨s.cells ++ [readArr s heapRef]⟩ s.cells.length v) heapRef
        = readArr s heapRef := by
    intro v
    unfold readArr writeArr
    rw [List.getD_eq_getElem?_getD, List.getElem?_set_ne hne, ← List.getD_eq_getElem?_getD]
    exact List.getD_append _ _ _ _ hh
  simp only [getAllOp]
  exact ⟨fun hc => hne hc, hcopy, hunch,
    fun v => ⟨hwrite v, by rw [hwrite v], by rw [hwrite v], by rw [hwrite v]⟩⟩

/-- Witness for `getAll_returns_fresh_copy` on a two-task heap in cell 0:
the snapshot reference is fresh and clobbering it leaves the heap intact. -/
theorem getAll_returns_fresh_copy_witness :
    0 < demoStore.cells.length ∧
    ((getAllOp demoStore 0).1 ≠ 0 ∧
      readArr (writeArr (getAllOp demoStore 0).2 (getAllOp demoStore 0).1 []) 0
        = readArr demoStore 0) := by
  have h := getAll_returns_fresh_copy demoStore 0 (by decide)
  exact ⟨by decide, h.1, (h.2.2.2 []).1⟩

end SchedulerSpec

